import Mathlib

/-!
# Verification of the koolie-tooling CLI core

Shallow embedding of the `koolie` command-line dispatcher (`src/cli/koolie.ts`),
its path-resolution and sub-command discovery logic, and the entry-point
resolution pipeline of the `build-docs` sub-command
(`SubCommandBuildDocs.getDefaultEntryPoints` / `getSourceFiles`), together with
theorems settling the specification claims about them.

Modelling conventions:
* A path segment is a `List Char`; a filesystem path is a list of segments
  (`Path`).  The TypeScript code manipulates paths as strings joined by the
  platform separator; since segments never contain the separator, the two
  representations are in exact correspondence.  Paths of walked files are kept
  relative to the process working directory: `klaw` yields absolute paths
  prefixed by `cwd` + separator, and `getSourceFiles` strips exactly that
  prefix with `cwdRegExp` both when matching and when returning results, so
  only the relative part is ever observable.  The one place the absolute form
  matters is the `depth` computation, which counts the segments of the
  absolute directory; this is modelled by the additive constant `cwdLen`
  (the segment count of `process.cwd()`).
* Fallible JS code is modelled with `Except`; a runner models
  `run(args): Promise<number>` as `Args → Except String Int` (resolution with
  an integer or a thrown/rejected error).
-/

namespace Koolie

/-- A path segment (one component between separators). -/
abbrev Seg := List Char

/-- A filesystem path, as its list of segments. -/
abbrev Path := List Seg

/-! ## Entry-point resolution (`SubCommandBuildDocs.getSourceFiles`) -/

/-- One item yielded by the `klaw` tree walk used by `findFiles` in
`Utils.ts`: a path (kept cwd-relative, see module docstring) together with
whether `item.stats.isFile()` holds.  Directories are walked but rejected by
the filter. -/
structure FsItem where
  path : Path
  isFile : Bool
deriving DecidableEq, Repr

/-- A compiled glob matcher, as used after `GlobToRegExp` compilation: a
boolean test on the cwd-relative path. -/
abbrev Matcher := Path → Bool

/-- Models the matcher compiled from the glob `**/*.ts` by `glob-to-regexp`
with default options, i.e. the regular expression `^.*\/.*\.ts$` tested on the
separator-joined relative path: the path must contain a separator (at least
two segments) and end in `.ts`. -/
def globTsMatcher : Matcher := fun p =>
  2 ≤ p.length && ".ts".data.isSuffixOf (p.getLastD [])

/-- Models the matcher compiled from the glob `**/*.spec.ts` by
`glob-to-regexp` with default options, i.e. `^.*\/.*\.spec\.ts$`: at least two
segments and a final segment ending in `.spec.ts`. -/
def globSpecTsMatcher : Matcher := fun p =>
  2 ≤ p.length && ".spec.ts".data.isSuffixOf (p.getLastD [])

/-- The predicate passed to `findFiles` inside `getSourceFiles`
(src lines 251-265): reject non-files, then require some inclusion regex to
match the cwd-relative path and no exclusion regex to match it
(`Array.prototype.find` truthiness is modelled by `List.any`). -/
def srcFilter (inclusions exclusions : List Matcher) (item : FsItem) : Bool :=
  if !item.isFile then
    false
  else if inclusions.any (fun m => m item.path) then
    if exclusions.any (fun m => m item.path) then false else true
  else
    false

/-- `findFiles` from `Utils.ts`: walk the tree (the walk enumeration is the
input list, in `klaw` order) and collect the paths of items passing the
filter. -/
def findFiles (items : List FsItem) (filter : FsItem → Bool) : List Path :=
  (items.filter filter).map (fun it => it.path)

/-- The record built for every matched file (src lines 267-272):
`parse(filename)` plus the derived `depth` (number of segments of the
absolute containing directory, i.e. `cwdLen` plus the relative directory
segment count) and `isIndex` (`components.base === 'index.ts'`). -/
structure MatchRec where
  filename : Path
  depth : Nat
  isIndex : Bool
deriving DecidableEq, Repr

/-- `components.base === 'index.ts'` (src line 270) and
`basename(srcFile) === 'index.ts'` (src lines 219, 226): the base name is
exactly the reserved index filename. -/
def isIndexFile (f : Path) : Bool :=
  f.getLastD [] == "index.ts".data

/-- Build the `MatchRec` for one matched file (src lines 267-272). -/
def toMatchRec (cwdLen : Nat) (f : Path) : MatchRec :=
  { filename := f
    depth := cwdLen + f.dropLast.length
    isIndex := isIndexFile f }

/-- The comparator passed to `Array.prototype.sort` (src line 278), returning
a JS-style signed number:
`!a.isIndex && b.isIndex ? -1 : a.isIndex && !b.isIndex ? 1 : b.depth - a.depth`. -/
def matchCmp (a b : MatchRec) : Int :=
  if !a.isIndex && b.isIndex then -1
  else if a.isIndex && !b.isIndex then 1
  else (b.depth : Int) - (a.depth : Int)

/-- Insert one element into an already sorted list, after every element that
compares strictly before it: this is the insertion step of a stable sort
agreeing with ES2019+ `Array.prototype.sort` (which is specified stable) for
the consistent comparator `matchCmp`. -/
def sortInsert (x : MatchRec) : List MatchRec → List MatchRec
  | [] => [x]
  | y :: ys => if matchCmp y x < 0 then y :: sortInsert x ys else x :: y :: ys

/-- Stable sort by `matchCmp`, modelling `matches.sort((a, b) => ...)`
(src lines 276-279).  Elements are inserted back-to-front, so an element is
placed before every element of equal key that followed it in the input. -/
def stableSortCmp (l : List MatchRec) : List MatchRec :=
  l.foldr sortInsert []

/-- `SubCommandBuildDocs.getSourceFiles` (src lines 244-281): filter the tree
walk by the compiled inclusion/exclusion matchers, build the match records
and return the sorted cwd-relative filenames. -/
def getSourceFiles (cwdLen : Nat) (items : List FsItem)
    (inclusions exclusions : List Matcher) : List Path :=
  let fileList := findFiles items (srcFilter inclusions exclusions)
  let matchRecs := fileList.map (toMatchRec cwdLen)
  (stableSortCmp matchRecs).map (fun m => m.filename)

/-- The `getSourceFiles` call made by `getDefaultEntryPoints` (src line 209),
with its fixed rules: inclusions `['**/*.ts']`, exclusions `['**/*.spec.ts']`. -/
def docsSourceFiles (cwdLen : Nat) (items : List FsItem) : List Path :=
  getSourceFiles cwdLen items [globTsMatcher] [globSpecTsMatcher]

/-- Whether some matched source file in `srcFiles` is an `index.ts` living in
directory `d`: the lookup `dirHasIndex.get(srcDir)` against the map built in
src lines 217-223. -/
def dirHasIndex (srcFiles : List Path) (d : Path) : Bool :=
  srcFiles.any (fun f => isIndexFile f && f.dropLast == d)

/-- `SubCommandBuildDocs.getDefaultEntryPoints` (src lines 198-233), after the
source root has been determined: take the matched source files for the fixed
rules; when `preferIndex` is set, keep only files that are an `index.ts` or
live in a directory without one (src lines 225-229). -/
def getDefaultEntryPoints (cwdLen : Nat) (items : List FsItem)
    (preferIndex : Bool) : List Path :=
  let srcFiles := docsSourceFiles cwdLen items
  if preferIndex then
    srcFiles.filter (fun f => isIndexFile f || !dirHasIndex srcFiles f.dropLast)
  else
    srcFiles

/-! ## Command registry and dispatch (`src/cli/koolie.ts`, `main`) -/

/-- The arguments handed to a runner: the remaining positional tokens after
the leading command token has been consumed (`args._` after `shift()`); the
parsed option key-values are irrelevant to the dispatch logic and elided. -/
abbrev Args := List String

/-- A sub-command runner, `(args: Arguments) => Promise<number>`: it either
resolves with an integer exit code or rejects/throws (modelled by
`Except.error` carrying the logged error text). -/
abbrev Runner := Args → Except String Int

/-- A discovered sub-command descriptor, with the capability surface the
dispatcher consumes: `name()` and `run(args)` (the `command`, `description`
and `create` members only feed the external `yargs` collaborator). -/
structure SubCmd where
  name : String
  run : Runner

/-- The `subCommandRunners` map, `Map<string, SubCommandRunner>`, as an
association list with the JS `Map` key-uniqueness invariant maintained by
`mapSet`. -/
abbrev RunnerMap := List (String × Runner)

/-- JS `Map.prototype.set`: if the key is present, update its value in place
(keeping its insertion position), otherwise append a new entry. -/
def mapSet : RunnerMap → String → Runner → RunnerMap
  | [], k, v => [(k, v)]
  | (k', v') :: rest, k, v =>
    if k' == k then (k', v) :: rest else (k', v') :: mapSet rest k v

/-- JS `Map.prototype.get`: the value stored under the key, if any. -/
def mapGet : RunnerMap → String → Option Runner
  | [], _ => none
  | (k', v') :: rest, k => if k' == k then some v' else mapGet rest k

/-- Registry construction (src lines 64-68): the `reduce` over the discovered
sub-commands performs `subCommandRunners.set(sc.name(), (args) => sc.run(args))`
for each descriptor in discovery order. -/
def buildRunners (scs : List SubCmd) : RunnerMap :=
  scs.foldl (fun m sc => mapSet m sc.name sc.run) []

/-- The observable outcome of one dispatch: the `process.exit` status, the
lines written to `stderr` (`console.error`), and which runner, if any, was
invoked. -/
structure DispatchResult where
  code : Int
  stderr : List String
  invoked : Option String
deriving Repr

/-- The dispatch step of `main` (src lines 70-85): shift the first positional
token, look its runner up; if absent print
`` `${subCommand}: Unsupported sub-command` `` and exit 1; otherwise run the
runner and exit with its resolved integer, the surrounding `try/catch`
turning a thrown error into `console.error(err)` and exit 1.  An empty
positional list makes `shift()` return `undefined`, which is interpolated as
the string `"undefined"` and never found in the registry. -/
def dispatch (runners : RunnerMap) (positional : List String) : DispatchResult :=
  match positional with
  | [] =>
    { code := 1, stderr := ["undefined: Unsupported sub-command"], invoked := none }
  | cmd :: rest =>
    match mapGet runners cmd with
    | none =>
      { code := 1, stderr := [cmd ++ ": Unsupported sub-command"], invoked := none }
    | some r =>
      match r rest with
      | Except.ok code => { code := code, stderr := [], invoked := some cmd }
      | Except.error e => { code := 1, stderr := [e], invoked := some cmd }

/-! ## Module-search directory resolution (`main`, src lines 17-35) -/

/-- The bin-directory resolution at the top of `main`: default to the
directory containing the host script (`path.dirname(process.argv[1])`), but
prefer `<cwd>/node_modules/.bin` when `fileExists` succeeds on either
`koolie` or `koolie.cmd` inside it.  `fileExists` (Utils.ts lines 83-86) is a
boolean `stat` probe — `isFileFs` gives its outcome for every path — so no
error is raised when both probes fail. -/
def resolveBinDir (scriptDir : Path) (cwd : Path) (isFileFs : Path → Bool) : Path :=
  let relativeBinDir := cwd ++ ["node_modules".data, ".bin".data]
  if isFileFs (relativeBinDir ++ ["koolie".data]) ||
      isFileFs (relativeBinDir ++ ["koolie.cmd".data]) then
    relativeBinDir
  else
    scriptDir

/-! ## Sub-command candidate discovery (`main`, src lines 39-47) -/

/-- The literal name prefix required of candidate files. -/
def subCmdNamePrefix : List Char := "koolie-SubCmd".data

/-- The test `/^koolie-SubCmd[^.]*\.js$/.test(name)` applied to each directory
entry: the fixed prefix, then a run of non-dot characters, then the literal
suffix `.js`. -/
def isSubCmdFile (nm : List Char) : Bool :=
  subCmdNamePrefix.isPrefixOf nm &&
    (let r := nm.drop subCmdNamePrefix.length
     ".js".data.isSuffixOf r && (r.take (r.length - 3)).all (fun c => c != '.'))

/-- Candidate discovery: `readdir(koolieBinDir)` filtered by the name regex
and mapped through `path.join(koolieBinDir, name)`. -/
def discoverCandidates (binDir : Path) (entries : List (List Char)) : List Path :=
  (entries.filter isSubCmdFile).map (fun nm => binDir ++ [nm])

/-! ## Windows wrapper translation (`importWindowsSubCommand`, src lines 118-137)

The wrapper body is matched against the regular expression `/\.\.\\(.*\.js)/`:
the literal token `..\` followed by a greedy run of non-line-terminator
characters ending in the literal `.js`.  `RegExp.prototype.exec` finds the
leftmost position at which the whole pattern matches; greediness makes the
capture extend to the last `.js` reachable without crossing a line
terminator. -/

/-- The literal token `..\` opening the wrapper pattern. -/
def ddsToken : List Char := ['.', '.', '\\']

/-- The literal suffix `.js` closing the capture. -/
def jsToken : List Char := ['.', 'j', 's']

/-- Whether a character is matched by `.` in a JavaScript regex without the
`s` flag: everything except the line terminators LF, CR, LS, PS. -/
def dotOK (c : Char) : Bool :=
  c != '\n' && c != '\r' && c != ' ' && c != ' '

/-- The longest prefix of `l` that ends in the literal `.js`, if any: the
greedy resolution of `(.*\.js)` at a fixed start position, before the
line-terminator restriction is taken into account. -/
def lastJsPrefix : List Char → Option (List Char)
  | [] => none
  | c :: cs =>
    match lastJsPrefix cs with
    | some p => some (c :: p)
    | none => if jsToken.isPrefixOf (c :: cs) then some jsToken else none

/-- The capture of `(.*\.js)` at a fixed start position: the longest prefix
of the line-terminator-free run that ends in `.js`. -/
def captureAt (l : List Char) : Option (List Char) :=
  lastJsPrefix (l.takeWhile dotOK)

/-- `exec` of `/\.\.\\(.*\.js)/` on the wrapper contents: try each start
position from the left; at a position starting with `..\` whose following
text admits a capture, return that capture, otherwise keep scanning. -/
def wrapperExtract : List Char → Option (List Char)
  | [] => none
  | c :: cs =>
    match (if ddsToken.isPrefixOf (c :: cs) then captureAt (cs.drop 2) else none) with
    | some cap => some cap
    | none => wrapperExtract cs

/-- `path.join(process.cwd(), 'node_modules', match[1])` on the Windows code
path: the separator-joined concatenation (the captured fragment keeps its own
embedded `\` separators). -/
def winJoin (cwd : List Char) (frag : List Char) : List Char :=
  cwd ++ ['\\'] ++ "node_modules".data ++ ['\\'] ++ frag

/-- `importWindowsSubCommand` (src lines 118-137): read the wrapper body,
extract the embedded module path; on a match, import the module resolved
under `<cwd>/node_modules` (the external import is the oracle `importModule`,
giving the descriptors a module path contributes); on no match, fall through
and contribute nothing. -/
def importWindowsSubCommand (cwd : List Char) (contents : List Char)
    (importModule : List Char → List SubCmd) : List SubCmd :=
  match wrapperExtract contents with
  | some frag => importModule (winJoin cwd frag)
  | none => []

/-- The descriptor a JS `Map` ends up associating with a name: the last
descriptor in discovery order carrying that name (each later `set` on the
same key overwrites the earlier value).  This is the specification-side
description of the overwrite policy the code actually implements. -/
def lastDiscovered (scs : List SubCmd) (name : String) : Option SubCmd :=
  scs.foldl (fun acc sc => if sc.name == name then some sc else acc) none

/-- The claim-facing ordering relation on two output paths of the entry-point
resolution: either the first is a non-index file and the second an index
file, or they have equal index-status and the first's containing directory
has at least as many path segments. -/
def entryKeyLe (f g : Path) : Prop :=
  (isIndexFile f = false ∧ isIndexFile g = true) ∨
  (isIndexFile f = isIndexFile g ∧ g.dropLast.length ≤ f.dropLast.length)

/-! ## Concrete fixtures used by counterexamples and witnesses -/

/-- The `klaw` walk, in traversal order, of the C1 scenario tree: root `a`
containing `b/index.ts`, `b/widget.ts` and `index.ts`, taken cwd-relative.
Every relevant comparison in the pipeline is independent of the walk order
here because no two matched files share both index-status and depth. -/
def c1Tree : List FsItem :=
  [ { path := ["a".data], isFile := false },
    { path := ["a".data, "b".data], isFile := false },
    { path := ["a".data, "b".data, "index.ts".data], isFile := true },
    { path := ["a".data, "b".data, "widget.ts".data], isFile := true },
    { path := ["a".data, "index.ts".data], isFile := true } ]

/-- The `klaw` walk of the C5 scenario tree: root `src` containing `x.ts`
and `x.spec.ts`. -/
def c5Tree : List FsItem :=
  [ { path := ["src".data], isFile := false },
    { path := ["src".data, "x.ts".data], isFile := true },
    { path := ["src".data, "x.spec.ts".data], isFile := true } ]

/-- First descriptor of the C2 counterexample: name `x`, runner exiting 11. -/
def c2First : SubCmd := { name := "x", run := fun _ => Except.ok 11 }

/-- Second descriptor of the C2 counterexample: same name `x`, runner
exiting 22. -/
def c2Second : SubCmd := { name := "x", run := fun _ => Except.ok 22 }

/-- Descriptor used by the C6 witness whose runner resolves with 7. -/
def c6Ok : SubCmd := { name := "ok", run := fun _ => Except.ok 7 }

/-- Descriptor used by the C6 witness whose runner throws. -/
def c6Boom : SubCmd := { name := "boom", run := fun _ => Except.error "kaput" }

/-- The only descriptor of the C7 witness registry, named `build-dist`. -/
def c7BuildDist : SubCmd := { name := "build-dist", run := fun _ => Except.ok 0 }

/-- The filesystem probe of the C9 witness: only
`proj/node_modules/.bin/koolie` exists. -/
def c9ProbeFs : Path → Bool := fun p =>
  p == ["proj".data, "node_modules".data, ".bin".data, "koolie".data]

/-! ## Registry lemmas -/

theorem lastAcc_eq (scs : List SubCmd) (name : String) (acc : Option SubCmd) :
    scs.foldl (fun a sc => if sc.name == name then some sc else a) acc =
      match scs.foldl (fun a sc => if sc.name == name then some sc else a) none with
      | some sc => some sc
      | none => acc := by
  induction scs generalizing acc with
  | nil => simp
  | cons sc rest ih =>
    simp only [List.foldl_cons]
    rw [ih (if sc.name == name then some sc else acc),
      ih (if sc.name == name then some sc else none)]
    cases h : rest.foldl (fun a sc => if sc.name == name then some sc else a) none <;>
      cases hn : sc.name == name <;> simp

theorem mapGet_mapSet (m : RunnerMap) (k : String) (v : Runner) (k' : String) :
    mapGet (mapSet m k v) k' = if k == k' then some v else mapGet m k' := by
  induction m with
  | nil => simp [mapSet, mapGet]
  | cons p rest ih =>
    obtain ⟨k₀, v₀⟩ := p
    simp only [mapSet, mapGet]
    by_cases h : k₀ = k <;> by_cases h' : k₀ = k' <;> simp_all [mapGet]
    exact (if_neg fun hc => h hc.symm).symm

theorem buildRunners_foldl (scs : List SubCmd) (name : String) (m : RunnerMap) :
    mapGet (scs.foldl (fun acc sc => mapSet acc sc.name sc.run) m) name =
      match lastDiscovered scs name with
      | some sc => some sc.run
      | none => mapGet m name := by
  induction scs generalizing m with
  | nil => simp [lastDiscovered]
  | cons sc rest ih =>
    simp only [List.foldl_cons, lastDiscovered]
    rw [ih (mapSet m sc.name sc.run), mapGet_mapSet,
      lastAcc_eq rest name (if sc.name == name then some sc else none)]
    show _ =
      match
        (match lastDiscovered rest name with
         | some sc' => some sc'
         | none => if sc.name == name then some sc else none) with
      | some sc' => some sc'.run
      | none => mapGet m name
    cases h : lastDiscovered rest name <;> cases hn : sc.name == name <;> simp_all [lastDiscovered]

/-! ## Claim C1 -/

/-- Claim C1, counterexample: on the tree `a/b/index.ts`, `a/b/widget.ts`,
`a/index.ts` with inclusion `**/*.ts`, no exclusions and prefer-index
enabled, `getDefaultEntryPoints` does **not** return the claimed list
`[a/b/widget.ts, a/b/index.ts, a/index.ts]`: the prefer-index step drops
`a/b/widget.ts` because its directory also contains `a/b/index.ts`. -/
theorem claim_C1_counterexample :
    getDefaultEntryPoints 1 c1Tree true ≠
      [ ["a".data, "b".data, "widget.ts".data],
        ["a".data, "b".data, "index.ts".data],
        ["a".data, "index.ts".data] ] := by
  decide

/-- Claim C1, amended: on that same input, `getDefaultEntryPoints` returns
exactly `[a/b/index.ts, a/index.ts]` — the deeper index first, the widget
file suppressed by the prefer-index rule.  (The order the claim expected is
what prefer-index *disabled* produces.) -/
theorem claim_C1_entry_points :
    getDefaultEntryPoints 1 c1Tree true =
      [ ["a".data, "b".data, "index.ts".data],
        ["a".data, "index.ts".data] ] := by
  decide

/-! ## Claim C2 -/

/-- Claim C2, counterexample: registering two descriptors that share the name
`x` silently overwrites the first runner — dispatching `x` exits with the
second runner's status 22, not the first's 11, and no failure occurs. -/
theorem claim_C2_counterexample :
    (dispatch (buildRunners [c2First, c2Second]) ["x"]).code = 22 ∧
      c2First.run [] = Except.ok 11 ∧ (22 : Int) ≠ 11 :=
  ⟨rfl, rfl, by decide⟩

/-- Claim C2, amended: the registry construction never fails; when several
discovered descriptors share a name, each later `Map.set` silently replaces
the earlier runner, so the runner registered under a name is that of the
*last* descriptor discovered with that name. -/
theorem claim_C2_last_writer_wins (scs : List SubCmd) (name : String) :
    mapGet (buildRunners scs) name = (lastDiscovered scs name).map (fun sc => sc.run) := by
  rw [buildRunners, buildRunners_foldl scs name []]
  cases h : lastDiscovered scs name <;> simp [mapGet]

/-! ## Claim C6 -/

/-- Claim C6: when a registered runner resolves with an integer `n ≥ 0`, the
process exits with status exactly `n`; when it throws, the dispatcher catches
the exception (dispatch is a total function — nothing propagates), logs it to
stderr, and exits with status 1. -/
theorem claim_C6_runner_exit_status (runners : RunnerMap) (cmd : String)
    (rest : Args) (r : Runner) (hr : mapGet runners cmd = some r) :
    (∀ n : Int, 0 ≤ n → r rest = Except.ok n →
      dispatch runners (cmd :: rest) = { code := n, stderr := [], invoked := some cmd }) ∧
    (∀ e : String, r rest = Except.error e →
      dispatch runners (cmd :: rest) = { code := 1, stderr := [e], invoked := some cmd }) := by
  constructor
  · intro n _ hn
    simp [dispatch, hr, hn]
  · intro e he
    simp [dispatch, hr, he]

/-- Witness for claim C6 at a concrete registry: the resolving runner's 7
becomes the exit status, the throwing runner yields status 1 with the error
logged. -/
theorem claim_C6_witness :
    dispatch (buildRunners [c6Ok, c6Boom]) ["ok"] =
      { code := 7, stderr := [], invoked := some "ok" } ∧
    dispatch (buildRunners [c6Ok, c6Boom]) ["boom"] =
      { code := 1, stderr := ["kaput"], invoked := some "boom" } :=
  ⟨(claim_C6_runner_exit_status (buildRunners [c6Ok, c6Boom]) "ok" [] c6Ok.run
      (by rfl)).1 7 (by decide) (by rfl),
   (claim_C6_runner_exit_status (buildRunners [c6Ok, c6Boom]) "boom" [] c6Boom.run
      (by rfl)).2 "kaput" (by rfl)⟩

/-! ## Claim C7 -/

/-- Claim C7: dispatching a command name with no registered runner exits with
status 1, never invokes any runner, and prints to stderr a diagnostic that
contains (starts with) the unsupported command name. -/
theorem claim_C7_unknown_command (runners : RunnerMap) (cmd : String) (rest : Args)
    (h : mapGet runners cmd = none) :
    (dispatch runners (cmd :: rest)).code = 1 ∧
    (dispatch runners (cmd :: rest)).invoked = none ∧
    ∃ diag : String, (dispatch runners (cmd :: rest)).stderr = [cmd ++ diag] := by
  refine ⟨?_, ?_, ": Unsupported sub-command", ?_⟩ <;> simp [dispatch, h]

/-- Witness for claim C7: dispatching `frobnicate` against a registry holding
only `build-dist` exits 1, invokes nothing, and the stderr line starts with
`frobnicate`. -/
theorem claim_C7_witness :
    (dispatch (buildRunners [c7BuildDist]) ["frobnicate"]).code = 1 ∧
    (dispatch (buildRunners [c7BuildDist]) ["frobnicate"]).invoked = none ∧
    ∃ diag : String,
      (dispatch (buildRunners [c7BuildDist]) ["frobnicate"]).stderr = ["frobnicate" ++ diag] :=
  claim_C7_unknown_command (buildRunners [c7BuildDist]) "frobnicate" [] rfl

/-! ## Claim C9 -/

/-- Claim C9: for every host-script directory and working directory, the
module-search directory is `<cwd>/node_modules/.bin` when that directory
contains a file `koolie` or a file `koolie.cmd`, and the host script's own
directory otherwise; both probes failing is handled by plain fallback, not an
error (`resolveBinDir` is total). -/
theorem claim_C9_bin_dir_selection (scriptDir cwd : Path) (isFileFs : Path → Bool) :
    ((isFileFs (cwd ++ ["node_modules".data, ".bin".data, "koolie".data]) = true ∨
      isFileFs (cwd ++ ["node_modules".data, ".bin".data, "koolie.cmd".data]) = true) →
      resolveBinDir scriptDir cwd isFileFs = cwd ++ ["node_modules".data, ".bin".data]) ∧
    (isFileFs (cwd ++ ["node_modules".data, ".bin".data, "koolie".data]) = false →
      isFileFs (cwd ++ ["node_modules".data, ".bin".data, "koolie.cmd".data]) = false →
      resolveBinDir scriptDir cwd isFileFs = scriptDir) := by
  constructor
  · intro h
    rcases h with h | h <;>
      · unfold resolveBinDir
        simp only [List.append_assoc] at h ⊢
        simp [h]
  · intro h1 h2
    unfold resolveBinDir
    simp only [List.append_assoc] at h1 h2 ⊢
    simp [h1, h2]

/-- Witness for claim C9: with the `koolie` probe succeeding the project-local
bin directory is selected; with no probe succeeding the script directory is
kept and no error occurs. -/
theorem claim_C9_witness :
    resolveBinDir ["opt".data] ["proj".data] c9ProbeFs =
      ["proj".data, "node_modules".data, ".bin".data] ∧
    resolveBinDir ["opt".data] ["proj".data] (fun _ => false) = ["opt".data] :=
  ⟨(claim_C9_bin_dir_selection ["opt".data] ["proj".data] c9ProbeFs).1 (Or.inl (by decide)),
   (claim_C9_bin_dir_selection ["opt".data] ["proj".data] (fun _ => false)).2 rfl rfl⟩

/-! ## Claim C10 -/

/-- Claim C10: a directory entry is a command-module candidate exactly when
its name is `koolie-SubCmd`, then zero or more characters none of which is a
dot, then `.js`; discovery keeps exactly the entries passing that test; and
the dotted name `koolie-SubCmdFoo.bar.js` is never discovered. -/
theorem claim_C10_candidate_pattern :
    (∀ nm : List Char, isSubCmdFile nm = true ↔
      ∃ mid : List Char, nm = subCmdNamePrefix ++ mid ++ ".js".data ∧
        mid.all (fun c => c != '.') = true) ∧
    (∀ (binDir : Path) (entries : List (List Char)) (nm : List Char),
      (binDir ++ [nm]) ∈ discoverCandidates binDir entries ↔
        nm ∈ entries ∧ isSubCmdFile nm = true) ∧
    isSubCmdFile ("koolie-SubCmdFoo.bar.js".data) = false := by
  refine ⟨?_, ?_, by decide⟩
  · intro nm
    constructor
    · intro h
      simp only [isSubCmdFile, Bool.and_eq_true, List.isPrefixOf_iff_prefix,
        List.isSuffixOf_iff_suffix] at h
      obtain ⟨⟨r, hr⟩, ⟨t, ht⟩, hall⟩ := h
      have hdrop : nm.drop subCmdNamePrefix.length = r := by
        rw [← hr, List.drop_left]
      have hr2 : r = t ++ ".js".data := hdrop.symm.trans ht.symm
      have h3 : (".js".data : List Char).length = 3 := rfl
      refine ⟨t, ?_, ?_⟩
      · rw [← hr, hr2, List.append_assoc]
      · rw [hdrop, hr2] at hall
        have hlen : (t ++ ".js".data).length - 3 = t.length := by
          simp [h3]
        rw [hlen, List.take_left] at hall
        exact hall
    · rintro ⟨mid, rfl, hall⟩
      simp only [isSubCmdFile, Bool.and_eq_true, List.isPrefixOf_iff_prefix,
        List.isSuffixOf_iff_suffix]
      have h3 : (".js".data : List Char).length = 3 := rfl
      have hdrop : (subCmdNamePrefix ++ mid ++ ".js".data).drop subCmdNamePrefix.length =
          mid ++ ".js".data := by
        rw [List.append_assoc, List.drop_left]
      refine ⟨⟨mid ++ ".js".data, by rw [List.append_assoc]⟩, ?_, ?_⟩
      · rw [hdrop]; exact ⟨mid, rfl⟩
      · rw [hdrop]
        have hlen : (mid ++ ".js".data).length - 3 = mid.length := by
          simp [h3]
        rw [hlen, List.take_left]
        exact hall
  · intro binDir entries nm
    constructor
    · intro h
      simp only [discoverCandidates, List.mem_map, List.mem_filter] at h
      obtain ⟨nm', ⟨hmem, hpat⟩, heq⟩ := h
      have : nm' = nm := by
        have := List.append_cancel_left heq
        simpa using this
      subst this
      exact ⟨hmem, hpat⟩
    · rintro ⟨hmem, hpat⟩
      simp only [discoverCandidates, List.mem_map, List.mem_filter]
      exact ⟨nm, ⟨hmem, hpat⟩, rfl⟩

/-- Witness for claim C10 at concrete names: `koolie-SubCmdBuildDist.js` is
discovered in a listing, while the dotted `koolie-SubCmdFoo.bar.js` is
excluded from the same listing. -/
theorem claim_C10_witness :
    (["bin".data] ++ ["koolie-SubCmdBuildDist.js".data]) ∈
      discoverCandidates ["bin".data]
        ["koolie-SubCmdBuildDist.js".data, "koolie-SubCmdFoo.bar.js".data] ∧
    ¬ (["bin".data] ++ ["koolie-SubCmdFoo.bar.js".data]) ∈
      discoverCandidates ["bin".data]
        ["koolie-SubCmdBuildDist.js".data, "koolie-SubCmdFoo.bar.js".data] := by
  constructor
  · exact (claim_C10_candidate_pattern.2.1 ["bin".data] _ _).2 ⟨by decide, by decide⟩
  · intro h
    have hmem := (claim_C10_candidate_pattern.2.1 ["bin".data] _ _).1 h
    have hfalse := claim_C10_candidate_pattern.2.2
    exact absurd (hmem.2.symm.trans hfalse) (by decide)

/-! ## Sorting lemmas: permutation, order, stability -/

theorem sortInsert_perm (x : MatchRec) (l : List MatchRec) :
    (sortInsert x l).Perm (x :: l) := by
  induction l with
  | nil => exact List.Perm.refl _
  | cons y ys ih =>
    unfold sortInsert
    split
    · exact (ih.cons y).trans (List.Perm.swap x y ys)
    · exact List.Perm.refl _

theorem stableSortCmp_perm (l : List MatchRec) : (stableSortCmp l).Perm l := by
  induction l with
  | nil => exact List.Perm.refl _
  | cons a l ih =>
    show (sortInsert a (stableSortCmp l)).Perm (a :: l)
    exact (sortInsert_perm a (stableSortCmp l)).trans (ih.cons a)

theorem mem_getSourceFiles (cwdLen : Nat) (items : List FsItem)
    (inclusions exclusions : List Matcher) (f : Path) :
    f ∈ getSourceFiles cwdLen items inclusions exclusions ↔
      ∃ it ∈ items, srcFilter inclusions exclusions it = true ∧ it.path = f := by
  unfold getSourceFiles
  constructor
  · intro hf
    simp only [List.mem_map] at hf
    obtain ⟨m, hm, rfl⟩ := hf
    have hm' := (stableSortCmp_perm _).mem_iff.mp hm
    simp only [List.mem_map] at hm'
    obtain ⟨p, hp, rfl⟩ := hm'
    simp only [findFiles, List.mem_map, List.mem_filter] at hp
    obtain ⟨it, ⟨hit, hflt⟩, rfl⟩ := hp
    exact ⟨it, hit, hflt, rfl⟩
  · rintro ⟨it, hit, hflt, rfl⟩
    simp only [List.mem_map]
    refine ⟨toMatchRec cwdLen it.path, ?_, rfl⟩
    refine (stableSortCmp_perm _).mem_iff.mpr ?_
    simp only [findFiles, List.mem_map, List.mem_filter]
    exact ⟨it.path, ⟨it, ⟨hit, hflt⟩, rfl⟩, rfl⟩

theorem srcFilter_eq_true (inclusions exclusions : List Matcher) (it : FsItem) :
    srcFilter inclusions exclusions it = true ↔
      it.isFile = true ∧ (inclusions.any fun m => m it.path) = true ∧
        (exclusions.any fun m => m it.path) = false := by
  cases hf : it.isFile <;>
    cases hi : (inclusions.any fun m => m it.path) <;>
      cases he : (exclusions.any fun m => m it.path) <;>
        simp [srcFilter, hf, hi, he]

/-! ## Claim C5 -/

/-- Claim C5: a walked file is in the matched output exactly when some
inclusion matcher accepts its cwd-relative path and no exclusion matcher
does; with an empty inclusion list the output is empty; and on the concrete
tree `src/x.ts`, `src/x.spec.ts` with inclusion `**/*.ts` and exclusion
`**/*.spec.ts`, only `src/x.ts` is matched. -/
theorem claim_C5_inclusion_exclusion (cwdLen : Nat) (items : List FsItem)
    (inclusions exclusions : List Matcher) :
    (∀ it : FsItem, it ∈ items → it.isFile = true →
      (it.path ∈ getSourceFiles cwdLen items inclusions exclusions ↔
        (inclusions.any fun m => m it.path) = true ∧
          (exclusions.any fun m => m it.path) = false)) ∧
    getSourceFiles cwdLen items [] exclusions = [] ∧
    getSourceFiles 1 c5Tree [globTsMatcher] [globSpecTsMatcher] =
      [["src".data, "x.ts".data]] := by
  refine ⟨?_, ?_, by decide⟩
  · intro it hit hfile
    rw [mem_getSourceFiles]
    constructor
    · rintro ⟨it', hit', hflt, hpath⟩
      rw [srcFilter_eq_true] at hflt
      rw [← hpath]
      exact ⟨hflt.2.1, hflt.2.2⟩
    · rintro ⟨hi, he⟩
      exact ⟨it, hit, (srcFilter_eq_true _ _ it).mpr ⟨hfile, hi, he⟩, rfl⟩
  · have hnone : items.filter (srcFilter [] exclusions) = [] := by
      refine List.filter_eq_nil_iff.mpr ?_
      intro it _
      cases hf : it.isFile <;> simp [srcFilter, hf]
    unfold getSourceFiles findFiles
    rw [hnone]
    rfl

/-- Witness for claim C5: applying the matching rule at the concrete tree
shows `src/x.ts` is in the matched output. -/
theorem claim_C5_witness :
    ["src".data, "x.ts".data] ∈ getSourceFiles 1 c5Tree [globTsMatcher] [globSpecTsMatcher] :=
  ((claim_C5_inclusion_exclusion 1 c5Tree [globTsMatcher] [globSpecTsMatcher]).1
    { path := ["src".data, "x.ts".data], isFile := true } (by decide) rfl).mpr
    ⟨by decide, by decide⟩

/-! ## Claim C4 -/

theorem dirHasIndex_eq_true (srcFiles : List Path) (d : Path) :
    dirHasIndex srcFiles d = true ↔
      ∃ f ∈ srcFiles, isIndexFile f = true ∧ f.dropLast = d := by
  unfold dirHasIndex
  rw [List.any_eq_true]
  constructor
  · rintro ⟨f, hf, hb⟩
    rw [Bool.and_eq_true] at hb
    exact ⟨f, hf, hb.1, by simpa using hb.2⟩
  · rintro ⟨f, hf, h1, h2⟩
    exact ⟨f, hf, by simp [h1, h2]⟩

/-- Claim C4: for any directory `d`, (i) if `d` contains both a matched
`index.ts` and a matched non-index file, the prefer-index output restricted
to `d` is exactly the matched `index.ts` files of `d`; (ii) with the flag
disabled, `d` contributes all its matched files; (iii) a directory without a
matched `index.ts` contributes the same files whatever the flag. -/
theorem claim_C4_prefer_index (cwdLen : Nat) (items : List FsItem) (d : Path) :
    ((∃ f ∈ docsSourceFiles cwdLen items, isIndexFile f = true ∧ f.dropLast = d) →
     (∃ f ∈ docsSourceFiles cwdLen items, isIndexFile f = false ∧ f.dropLast = d) →
      (getDefaultEntryPoints cwdLen items true).filter (fun f => f.dropLast == d) =
        (docsSourceFiles cwdLen items).filter
          (fun f => f.dropLast == d && isIndexFile f)) ∧
    ((getDefaultEntryPoints cwdLen items false).filter (fun f => f.dropLast == d) =
      (docsSourceFiles cwdLen items).filter (fun f => f.dropLast == d)) ∧
    ((¬ ∃ f ∈ docsSourceFiles cwdLen items, isIndexFile f = true ∧ f.dropLast = d) →
      ∀ preferIndex : Bool,
        (getDefaultEntryPoints cwdLen items preferIndex).filter
            (fun f => f.dropLast == d) =
          (docsSourceFiles cwdLen items).filter (fun f => f.dropLast == d)) := by
  refine ⟨?_, rfl, ?_⟩
  · intro hidx _hnon
    have hd : dirHasIndex (docsSourceFiles cwdLen items) d = true :=
      (dirHasIndex_eq_true _ _).mpr hidx
    show ((docsSourceFiles cwdLen items).filter
        (fun f => isIndexFile f ||
          !dirHasIndex (docsSourceFiles cwdLen items) f.dropLast)).filter
        (fun f => f.dropLast == d) = _
    rw [List.filter_filter]
    refine List.filter_congr ?_
    intro f _
    cases hP : (f.dropLast == d)
    · simp
    · have hfd : f.dropLast = d := by simpa using hP
      simp [hfd, hd]
  · intro hno preferIndex
    have hd : dirHasIndex (docsSourceFiles cwdLen items) d = false := by
      cases h : dirHasIndex (docsSourceFiles cwdLen items) d
      · rfl
      · exact absurd ((dirHasIndex_eq_true _ _).mp h) hno
    cases preferIndex
    · rfl
    · show ((docsSourceFiles cwdLen items).filter
          (fun f => isIndexFile f ||
            !dirHasIndex (docsSourceFiles cwdLen items) f.dropLast)).filter
          (fun f => f.dropLast == d) = _
      rw [List.filter_filter]
      refine List.filter_congr ?_
      intro f _
      cases hP : (f.dropLast == d)
      · simp
      · have hfd : f.dropLast = d := by simpa using hP
        simp [hfd, hd]

/-- Witness for claim C4 at the concrete C1 tree and directory `a/b` (which
contains both the matched `a/b/index.ts` and the matched `a/b/widget.ts`):
with prefer-index enabled `a/b` contributes exactly its index file; with the
flag disabled it contributes all its matched files. -/
theorem claim_C4_witness :
    (getDefaultEntryPoints 1 c1Tree true).filter
        (fun f => f.dropLast == ["a".data, "b".data]) =
      (docsSourceFiles 1 c1Tree).filter
        (fun f => f.dropLast == ["a".data, "b".data] && isIndexFile f) ∧
    (getDefaultEntryPoints 1 c1Tree false).filter
        (fun f => f.dropLast == ["a".data, "b".data]) =
      (docsSourceFiles 1 c1Tree).filter
        (fun f => f.dropLast == ["a".data, "b".data]) :=
  ⟨(claim_C4_prefer_index 1 c1Tree ["a".data, "b".data]).1
      ⟨["a".data, "b".data, "index.ts".data], by decide, by decide, rfl⟩
      ⟨["a".data, "b".data, "widget.ts".data], by decide, by decide, rfl⟩,
   (claim_C4_prefer_index 1 c1Tree ["a".data, "b".data]).2.1⟩

/-! ## Claim C3: order and stability of the sorted output -/

theorem matchCmp_neg (a b : MatchRec) : matchCmp a b = -matchCmp b a := by
  unfold matchCmp
  cases ha : a.isIndex <;> cases hb : b.isIndex <;> simp [ha, hb]

theorem matchCmp_le_trans {a b c : MatchRec}
    (h1 : matchCmp a b ≤ 0) (h2 : matchCmp b c ≤ 0) : matchCmp a c ≤ 0 := by
  unfold matchCmp at h1 h2 ⊢
  cases ha : a.isIndex <;> cases hb : b.isIndex <;> cases hc : c.isIndex <;>
    simp [ha, hb, hc] at h1 h2 ⊢ <;> omega

theorem pairwise_sortInsert (x : MatchRec) (l : List MatchRec)
    (h : l.Pairwise (fun a b => matchCmp a b ≤ 0)) :
    (sortInsert x l).Pairwise (fun a b => matchCmp a b ≤ 0) := by
  induction l with
  | nil => simp [sortInsert]
  | cons y ys ih =>
    rw [List.pairwise_cons] at h
    unfold sortInsert
    by_cases hyx : matchCmp y x < 0
    · rw [if_pos hyx, List.pairwise_cons]
      refine ⟨?_, ih h.2⟩
      intro z hz
      rcases List.mem_cons.mp ((sortInsert_perm x ys).mem_iff.mp hz) with rfl | hzys
      · exact le_of_lt hyx
      · exact h.1 z hzys
    · rw [if_neg hyx, List.pairwise_cons]
      have hxy : matchCmp x y ≤ 0 := by
        rw [matchCmp_neg]
        have := not_lt.mp hyx
        omega
      refine ⟨?_, List.Pairwise.cons h.1 h.2⟩
      intro z hz
      rcases List.mem_cons.mp hz with rfl | hzys
      · exact hxy
      · exact matchCmp_le_trans hxy (h.1 z hzys)

theorem pairwise_stableSortCmp (l : List MatchRec) :
    (stableSortCmp l).Pairwise (fun a b => matchCmp a b ≤ 0) := by
  induction l with
  | nil => simp [stableSortCmp]
  | cons a l ih => exact pairwise_sortInsert a _ ih

theorem filter_sortInsert (p : MatchRec → Bool) (x : MatchRec) (l : List MatchRec)
    (hp : ∀ b ∈ l, p x = true → p b = true → matchCmp b x = 0) :
    (sortInsert x l).filter p = if p x then x :: l.filter p else l.filter p := by
  induction l with
  | nil =>
    cases hpx : p x <;> simp [sortInsert, List.filter, hpx]
  | cons y ys ih =>
    have ih' := ih (fun b hb hpx hpb => hp b (List.mem_cons_of_mem y hb) hpx hpb)
    unfold sortInsert
    by_cases hyx : matchCmp y x < 0
    · rw [if_pos hyx, List.filter_cons, ih']
      cases hpx : p x
      · cases hpy : p y <;> simp [List.filter_cons, hpy, hpx]
      · have hpy : p y = false := by
          cases hpy' : p y
          · rfl
          · have := hp y (List.mem_cons_self y ys) hpx hpy'
            omega
        simp [hpy, List.filter_cons, hpx]
    · rw [if_neg hyx, List.filter_cons]

theorem filter_stableSortCmp (p : MatchRec → Bool) (l : List MatchRec)
    (hp : ∀ a ∈ l, ∀ b ∈ l, p a = true → p b = true → matchCmp a b = 0) :
    (stableSortCmp l).filter p = l.filter p := by
  induction l with
  | nil => rfl
  | cons a l ih =>
    show (sortInsert a (stableSortCmp l)).filter p = _
    rw [filter_sortInsert p a (stableSortCmp l) (fun b hb hpa hpb =>
      hp b (List.mem_cons_of_mem a ((stableSortCmp_perm l).mem_iff.mp hb))
        a (List.mem_cons_self a l) hpb hpa)]
    rw [ih (fun a' ha' b hb hpa hpb =>
      hp a' (List.mem_cons_of_mem a ha') b (List.mem_cons_of_mem a hb) hpa hpb)]
    cases hpa : p a <;> simp [List.filter_cons, hpa]

/-- Claim C3: in the entry-point output, every non-index file precedes every
index file, and among files of equal index-status deeper containing
directories come first (`Pairwise entryKeyLe`); moreover files of any fixed
index-status and directory depth appear in their discovery order — the
sorted output filtered to one sort key equals the pre-sort match list
filtered the same way. -/
theorem claim_C3_output_order (cwdLen : Nat) (items : List FsItem)
    (inclusions exclusions : List Matcher) :
    (getSourceFiles cwdLen items inclusions exclusions).Pairwise entryKeyLe ∧
    (∀ (b : Bool) (n : Nat),
      (getSourceFiles cwdLen items inclusions exclusions).filter
          (fun f => isIndexFile f == b && f.dropLast.length == n) =
        (findFiles items (srcFilter inclusions exclusions)).filter
          (fun f => isIndexFile f == b && f.dropLast.length == n)) := by
  constructor
  · unfold getSourceFiles
    rw [List.pairwise_map]
    refine List.Pairwise.imp_of_mem ?_ (pairwise_stableSortCmp _)
    intro a b ha hb hcmp
    have ha' := (stableSortCmp_perm _).mem_iff.mp ha
    have hb' := (stableSortCmp_perm _).mem_iff.mp hb
    simp only [List.mem_map] at ha' hb'
    obtain ⟨fa, _, rfl⟩ := ha'
    obtain ⟨fb, _, rfl⟩ := hb'
    simp only [matchCmp, toMatchRec] at hcmp
    simp only [toMatchRec]
    unfold entryKeyLe
    cases hia : isIndexFile fa <;> cases hib : isIndexFile fb <;>
      simp [hia, hib] at hcmp ⊢ <;> omega
  · intro b n
    unfold getSourceFiles
    rw [List.filter_map]
    rw [filter_stableSortCmp _ _ ?hkey]
    case hkey =>
      intro a' ha' b' hb' hpa hpb
      simp only [List.mem_map] at ha' hb'
      obtain ⟨fa, _, rfl⟩ := ha'
      obtain ⟨fb, _, rfl⟩ := hb'
      simp only [Function.comp, toMatchRec, Bool.and_eq_true, beq_iff_eq] at hpa hpb
      simp only [matchCmp, toMatchRec]
      rw [hpa.1, hpb.1, hpa.2, hpb.2]
      cases b <;> simp
    rw [← List.filter_map]
    congr 1
    rw [List.map_map]
    have h : ((fun (m : MatchRec) => m.filename) ∘ toMatchRec cwdLen) = fun f => f := rfl
    rw [h]
    exact List.map_id' _

/-! ## Claim C8: wrapper-translation lemmas -/

theorem lastJsPrefix_sound (l : List Char) (p : List Char)
    (h : lastJsPrefix l = some p) : p <+: l ∧ jsToken <:+ p := by
  induction l generalizing p with
  | nil => simp [lastJsPrefix] at h
  | cons c cs ih =>
    unfold lastJsPrefix at h
    split at h
    next p' hcs =>
      injection h with h'
      subst h'
      obtain ⟨hpre, hsuf⟩ := ih p' hcs
      obtain ⟨t, ht⟩ := hpre
      obtain ⟨a, ha⟩ := hsuf
      exact ⟨⟨t, by rw [List.cons_append, ht]⟩, ⟨c :: a, by rw [List.cons_append, ha]⟩⟩
    next hcs =>
      split at h
      next hjs =>
        injection h with h'
        subst h'
        exact ⟨List.isPrefixOf_iff_prefix.mp hjs, List.suffix_refl _⟩
      next hjs => exact Option.noConfusion h

theorem lastJsPrefix_none (l : List Char) (h : lastJsPrefix l = none) :
    ∀ q r, l = q ++ jsToken ++ r → False := by
  induction l with
  | nil =>
    intro q r hqr
    rw [List.append_assoc] at hqr
    have h2 := (List.append_eq_nil.mp hqr.symm).2
    have h3 := (List.append_eq_nil.mp h2).1
    exact absurd h3 (by simp [jsToken])
  | cons c cs ih =>
    intro q r hqr
    unfold lastJsPrefix at h
    split at h
    next p' hcs => exact Option.noConfusion h
    next hcs =>
      split at h
      next hjs => exact Option.noConfusion h
      next hjs =>
        cases q with
        | nil =>
          refine hjs ?_
          rw [List.isPrefixOf_iff_prefix]
          exact ⟨r, by rw [hqr]; simp⟩
        | cons d q' =>
          have hstep := hqr
          simp only [List.cons_append, List.append_assoc] at hstep
          injection hstep with h1 h2
          refine ih hcs q' r ?_
          rw [h2, List.append_assoc]

theorem lastJsPrefix_last (l p : List Char) (h : lastJsPrefix l = some p) :
    ∀ q r, l = q ++ jsToken ++ r → q.length + 3 ≤ p.length := by
  induction l generalizing p with
  | nil => simp [lastJsPrefix] at h
  | cons c cs ih =>
    intro q r hqr
    unfold lastJsPrefix at h
    split at h
    next p' hcs =>
      injection h with h'
      subst h'
      cases q with
      | nil =>
        have hsuf := (lastJsPrefix_sound cs p' hcs).2
        have hlen := hsuf.length_le
        simp [jsToken] at hlen
        simp
        omega
      | cons d q' =>
        have hstep := hqr
        simp only [List.cons_append, List.append_assoc] at hstep
        injection hstep with h1 h2
        have := ih p' hcs q' r (by rw [h2, List.append_assoc])
        simp
        omega
    next hcs =>
      split at h
      next hjs =>
        injection h with h'
        subst h'
        cases q with
        | nil => simp [jsToken]
        | cons d q' =>
          have hstep := hqr
          simp only [List.cons_append, List.append_assoc] at hstep
          injection hstep with h1 h2
          exact (lastJsPrefix_none cs hcs q' r (by rw [h2, List.append_assoc])).elim
      next hjs => exact Option.noConfusion h

theorem captureAt_run (seg post : List Char) (hseg : seg.all dotOK = true)
    (hpost : ∀ q r, post.takeWhile dotOK = q ++ jsToken ++ r → False) :
    captureAt (seg ++ jsToken ++ post) = some (seg ++ jsToken) := by
  unfold captureAt
  have hall : ∀ a ∈ seg ++ jsToken, dotOK a = true := by
    intro a ha
    rcases List.mem_append.mp ha with ha | ha
    · exact List.all_eq_true.mp hseg a ha
    · simp [jsToken] at ha
      rcases ha with rfl | rfl | rfl <;> decide
  have htw : ((seg ++ jsToken) ++ post).takeWhile dotOK =
      (seg ++ jsToken) ++ post.takeWhile dotOK :=
    List.takeWhile_append_of_pos hall
  rw [htw]
  cases hl : lastJsPrefix ((seg ++ jsToken) ++ post.takeWhile dotOK) with
  | none =>
    exact (lastJsPrefix_none _ hl seg (post.takeWhile dotOK)
      (by rw [List.append_assoc])).elim
  | some p =>
    obtain ⟨hpre, a, ha⟩ := lastJsPrefix_sound _ p hl
    have hlow : seg.length + 3 ≤ p.length :=
      lastJsPrefix_last _ p hl seg (post.takeWhile dotOK) (by rw [List.append_assoc])
    have hsj : (seg ++ jsToken) <+: ((seg ++ jsToken) ++ post.takeWhile dotOK) :=
      ⟨post.takeWhile dotOK, rfl⟩
    by_cases hhi : p.length ≤ seg.length + 3
    · have hplen : p.length = (seg ++ jsToken).length := by
        simp [jsToken]
        omega
      have := List.prefix_of_prefix_length_le hpre hsj (by simp [jsToken]; omega)
      rw [this.eq_of_length hplen]
    · exfalso
      push_neg at hhi
      have hcp : (seg ++ jsToken) <+: p :=
        List.prefix_of_prefix_length_le hsj hpre (by simp [jsToken]; omega)
      obtain ⟨rr, hrr⟩ := hcp
      obtain ⟨t, ht⟩ := hpre
      have hdpost : post.takeWhile dotOK = rr ++ t := by
        have hchain : (seg ++ jsToken) ++ (rr ++ t) =
            (seg ++ jsToken) ++ post.takeWhile dotOK := by
          rw [← List.append_assoc, hrr, ht]
        exact (List.append_cancel_left hchain).symm
      have hrrlen : 1 ≤ rr.length := by
        have hplen2 : (seg ++ jsToken ++ rr).length = p.length := by rw [hrr]
        simp [jsToken] at hplen2
        omega
      rcases rr with _ | ⟨x, rr1⟩
      · simp at hrrlen
      rcases rr1 with _ | ⟨y, rr2⟩
      · -- rr = [x]: the suffix `.js` of p would need 'j' = '.'
        have h1 : (seg ++ ['.']) ++ (['j', 's', x] : List Char) = a ++ jsToken := by
          rw [ha, ← hrr]
          simp [jsToken]
        have h2 := (List.append_inj' h1 (by simp [jsToken])).2
        simp [jsToken] at h2
      rcases rr2 with _ | ⟨z, rr3⟩
      · -- rr = [x, y]: the suffix `.js` of p would need 's' = '.'
        have h1 : (seg ++ ['.', 'j']) ++ (['s', x, y] : List Char) = a ++ jsToken := by
          rw [ha, ← hrr]
          simp [jsToken]
        have h2 := (List.append_inj' h1 (by simp [jsToken])).2
        simp [jsToken] at h2
      · -- rr has length ≥ 3: a later `.js` occurs inside the dotOK run of post
        have hca : (seg ++ jsToken) <+: a := by
          refine List.prefix_of_prefix_length_le ⟨x :: y :: z :: rr3, hrr⟩
            ⟨jsToken, ha⟩ ?_
          have hplen3 : p.length = a.length + 3 := by rw [← ha]; simp [jsToken]
          have hplen4 : (seg ++ jsToken ++ (x :: y :: z :: rr3)).length = p.length := by
            rw [hrr]
          simp [jsToken] at hplen4
          simp [jsToken]
          omega
        obtain ⟨b, hb⟩ := hca
        have hrrjs : x :: y :: z :: rr3 = b ++ jsToken := by
          have hccl : (seg ++ jsToken) ++ (x :: y :: z :: rr3) =
              (seg ++ jsToken) ++ (b ++ jsToken) := by
            rw [hrr, ← List.append_assoc, hb, ← ha]
          exact List.append_cancel_left hccl
        exact hpost b t (by rw [hdpost, hrrjs, List.append_assoc])

theorem wrapperExtract_cons_of_not (c : Char) (cs : List Char)
    (h : ddsToken.isPrefixOf (c :: cs) = false) :
    wrapperExtract (c :: cs) = wrapperExtract cs := by
  conv_lhs => rw [wrapperExtract]
  rw [h]
  simp

theorem wrapperExtract_first (pre seg post : List Char)
    (hfirst : ∀ u v : List Char,
      u ++ ddsToken ++ v = pre ++ ddsToken ++ seg ++ jsToken ++ post →
        pre.length ≤ u.length)
    (hseg : seg.all dotOK = true)
    (hpost : ∀ q r, post.takeWhile dotOK = q ++ jsToken ++ r → False) :
    wrapperExtract (pre ++ ddsToken ++ seg ++ jsToken ++ post) =
      some (seg ++ jsToken) := by
  induction pre with
  | nil =>
    rw [show (([] : List Char) ++ ddsToken ++ seg ++ jsToken ++ post) =
        '.' :: '.' :: '\\' :: (seg ++ jsToken ++ post) by simp [ddsToken]]
    conv_lhs => rw [wrapperExtract]
    have hpref : ddsToken.isPrefixOf
        ('.' :: '.' :: '\\' :: (seg ++ jsToken ++ post)) = true := by
      rw [List.isPrefixOf_iff_prefix]
      exact ⟨seg ++ jsToken ++ post, rfl⟩
    rw [hpref]
    simp only [if_true, List.drop_succ_cons, List.drop_zero]
    rw [captureAt_run seg post hseg hpost]
  | cons d pre' ih =>
    have hbody : ((d :: pre') ++ ddsToken ++ seg ++ jsToken ++ post) =
        d :: (pre' ++ ddsToken ++ seg ++ jsToken ++ post) := by simp
    rw [hbody]
    have hnot : ddsToken.isPrefixOf
        (d :: (pre' ++ ddsToken ++ seg ++ jsToken ++ post)) = false := by
      cases hc : ddsToken.isPrefixOf (d :: (pre' ++ ddsToken ++ seg ++ jsToken ++ post))
      · rfl
      · exfalso
        obtain ⟨v, hv⟩ := List.isPrefixOf_iff_prefix.mp hc
        have := hfirst [] v (by rw [List.nil_append, hv, ← hbody])
        simp at this
    rw [wrapperExtract_cons_of_not d _ hnot]
    refine ih ?_
    intro u v huv
    have := hfirst (d :: u) v (by
      simp only [List.append_assoc] at huv
      simp only [List.cons_append, List.append_assoc]
      rw [huv])
    simpa using this

/-- Claim C8, counterexample: the wrapper body `..\a\b.js.js` contains the
literal pattern `..\a\b.js` (segments `a`, name `b`), but the greedy capture
of `/\.\.\\(.*\.js)/` extracts `a\b.js.js` — everything up to the *last*
`.js` — not the contained fragment `a\b.js` the claim predicts. -/
theorem claim_C8_counterexample :
    wrapperExtract ("..\\a\\b.js.js".data) = some ("a\\b.js.js".data) ∧
    some ("a\\b.js.js".data) ≠ some ("a\\b.js".data) := by
  constructor
  · decide
  · decide

/-- Claim C8, amended: if the wrapper body decomposes as
`pre ++ "..\" ++ seg ++ ".js" ++ post` where this `..\` is the body's first,
`seg` contains no line terminator, and no further `.js` occurs in the
line-terminator-free run following (so the contained pattern is the one the
greedy regex resolves to), then the translation extracts exactly
`seg ++ ".js"` and imports `<cwd>\node_modules\<seg>.js`; and a body in
which the pattern does not match yields no module path and contributes zero
descriptors (non-fatal). -/
theorem claim_C8_wrapper_translation :
    (∀ (cwd pre seg post : List Char) (importModule : List Char → List SubCmd),
      (∀ u v : List Char,
        u ++ ddsToken ++ v = pre ++ ddsToken ++ seg ++ jsToken ++ post →
          pre.length ≤ u.length) →
      seg.all dotOK = true →
      (∀ q r, post.takeWhile dotOK = q ++ jsToken ++ r → False) →
      wrapperExtract (pre ++ ddsToken ++ seg ++ jsToken ++ post) =
          some (seg ++ jsToken) ∧
        importWindowsSubCommand cwd (pre ++ ddsToken ++ seg ++ jsToken ++ post)
            importModule =
          importModule (winJoin cwd (seg ++ jsToken))) ∧
    (∀ (cwd contents : List Char) (importModule : List Char → List SubCmd),
      wrapperExtract contents = none →
      importWindowsSubCommand cwd contents importModule = []) := by
  constructor
  · intro cwd pre seg post importModule hfirst hseg hpost
    have hx := wrapperExtract_first pre seg post hfirst hseg hpost
    refine ⟨hx, ?_⟩
    unfold importWindowsSubCommand
    rw [hx]
  · intro cwd contents importModule hx
    unfold importWindowsSubCommand
    rw [hx]

/-- Witness for (amended) claim C8 at a concrete wrapper body `..\a\b.js`:
the capture is `a\b.js` and the import targets `cwd\node_modules\a\b.js`;
and a patternless body yields zero descriptors. -/
theorem claim_C8_witness :
    wrapperExtract (([] : List Char) ++ ddsToken ++ "a\\b".data ++ jsToken ++ []) =
      some ("a\\b".data ++ jsToken) ∧
    importWindowsSubCommand "cwd".data
        (([] : List Char) ++ ddsToken ++ "a\\b".data ++ jsToken ++ [])
        (fun _ => []) =
      (fun _ => ([] : List SubCmd)) (winJoin "cwd".data ("a\\b".data ++ jsToken)) ∧
    importWindowsSubCommand "cwd".data "no pattern here".data (fun _ => []) = [] := by
  have h := claim_C8_wrapper_translation.1 "cwd".data [] "a\\b".data [] (fun _ => [])
    (fun u v _ => Nat.zero_le _) (by decide)
    (fun q r hqr => by simp [jsToken] at hqr)
  exact ⟨h.1, h.2, claim_C8_wrapper_translation.2 "cwd".data "no pattern here".data
    (fun _ => []) (by decide)⟩

end Koolie
